import Mathlib

/-!
Verification development for the target-dili-risk-score pipeline.

The Python sources are shallowly embedded as executable Lean definitions:

* `src/utils/drug_matching.py` — drug-name normalization, the three-tier
  name matcher (serial and chunked/parallel variants) and drug-target
  deduplication;
* `src/features/direct_evidence.py` — per-target direct-evidence aggregation;
* `src/features/network_scorer.py` — network guilt-by-association scores;
* `src/features/risk_calculator.py` — normalization, blending and risk
  categorization.

Numeric values (pandas float columns) are modelled as rationals `ℚ`;
pandas `NaN` cells arising from index alignment are modelled as `Option`.
Python strings are modelled as Lean `String` restricted to ASCII: the
regex classes `\w` and `\s` are modelled by their ASCII contents, and
`str.lower` by ASCII lowercasing.
-/

/-! ### Character model (Python regex classes, ASCII fragment) -/

/-- ASCII model of the regex class `\w` (alphanumeric or underscore). -/
def isWordCharB (c : Char) : Bool :=
  c.isAlpha || c.isDigit || c == '_'

/-- ASCII model of the regex class `\s` (Python whitespace characters). -/
def isSpaceCharB (c : Char) : Bool :=
  c == ' ' || c == '\t' || c == '\n' || c == '\r' || c == '\x0b' || c == '\x0c'

/-- Model of Python `str.lower` (ASCII lowercasing). -/
def pyLower (s : String) : String :=
  String.mk (s.toList.map Char.toLower)

/-- Model of Python `str.strip`: drop leading and trailing whitespace. -/
def stripChars (l : List Char) : List Char :=
  ((l.dropWhile isSpaceCharB).reverse.dropWhile isSpaceCharB).reverse

/-- Model of `re.sub(r'\s+', ' ', s)`: collapse each whitespace run to a
single space.  The boolean flag records whether the previous character was
part of a whitespace run. -/
def collapseWs : Bool → List Char → List Char
  | _, [] => []
  | prevWs, c :: cs =>
    if isSpaceCharB c then
      (if prevWs then [] else [' ']) ++ collapseWs true cs
    else c :: collapseWs false cs

/-- Word-boundary test used for `\b`: a boundary lies before position `i`
when the previous character (`prev`, `none` at the string edge) is not a
word character while the current one is, and symmetrically after a match. -/
def boundaryBefore (prev : Option Char) : Bool :=
  match prev with
  | none => true
  | some c => !(isWordCharB c)

/-- Try to match one of `words` (first alternative in pattern order wins,
as in a regex alternation) at the current position, requiring `\b` on both
sides.  `prev` is the character immediately before the position. -/
def matchWordAt (words : List (List Char)) (prev : Option Char) (s : List Char) :
    Option (List Char) :=
  words.find? (fun w =>
    !w.isEmpty && boundaryBefore prev && w.isPrefixOf s &&
      (match s.drop w.length with
       | [] => true
       | c :: _ => !(isWordCharB c)))

/-- Model of `re.sub(r'\b(w1|...|wk)\b', '', s)`: scan left to right, remove
every non-overlapping bounded occurrence of one of the literal `words`.
Boundaries are evaluated on the original string, which the scan preserves by
carrying the previous original character in `prev`.  `fuel` bounds the
recursion and is instantiated with the string length. -/
def subWordsAux (words : List (List Char)) : Nat → Option Char → List Char → List Char
  | 0, _, s => s
  | _ + 1, _, [] => []
  | fuel + 1, prev, c :: cs =>
    match matchWordAt words prev (c :: cs) with
    | some w =>
      subWordsAux words fuel (some (w.getLastD c)) ((c :: cs).drop w.length)
    | none => c :: subWordsAux words fuel (some c) cs

/-- Remove all `\b`-bounded occurrences of the given literal words. -/
def subWords (words : List String) (s : List Char) : List Char :=
  subWordsAux (words.map String.toList) s.length none s

/-! ### `normalize_drug_name` (drug_matching.py lines 19-51) -/

/-- The five suffix/salt patterns of `normalize_drug_name`, each an ordered
regex alternation of literal words. -/
def suffixPatterns : List (List String) :=
  [ ["hcl", "hydrochloride", "sulfate", "citrate", "phosphate", "acetate",
     "sodium", "potassium", "calcium", "magnesium"],
    ["hydrochloride", "sulfate", "citrate", "phosphate", "acetate"],
    ["sodium", "potassium", "calcium", "magnesium"],
    ["monohydrate", "dihydrate", "trihydrate"],
    ["hemihydrate", "sesquihydrate"] ]

/-- Embedding of `normalize_drug_name`: lowercase and strip, remove the five
suffix patterns in order, collapse whitespace runs to single spaces, delete
every character outside `\w` and `\s`, and strip again.  Empty input yields
the empty string. -/
def normalize_drug_name (name : String) : String :=
  if name = "" then ""
  else
    let normalized := stripChars ((pyLower name).toList)
    let normalized := suffixPatterns.foldl (fun acc ws => subWords ws acc) normalized
    let normalized := collapseWs false normalized
    let normalized := normalized.filter (fun c => isWordCharB c || isSpaceCharB c)
    String.mk (stripChars normalized)

/-! ### Name variations and matcher dictionaries (drug_matching.py lines 54-344)

Python `dict` assignment overwrites on key collision; a dict built by a loop
is modelled as the association list of the insertions in order, with lookup
returning the value of the *last* binding of a key (`pyLookup`).
`list(set(...))` has unspecified iteration order in Python; it is modelled
as first-occurrence-order deduplication (`dedupKeepFirst`). -/

/-- Embedding of `DataFrame.drop_duplicates(subset=key, keep='first')` (and
of first-seen-wins deduplication generally): keep a row exactly when its key
has not been seen before.  `seen` accumulates the keys already kept. -/
def dropDuplicatesBy {α κ : Type} [DecidableEq κ] (key : α → κ) :
    List α → List κ → List α
  | [], _ => []
  | r :: rs, seen =>
    if key r ∈ seen then dropDuplicatesBy key rs seen
    else r :: dropDuplicatesBy key rs (key r :: seen)

/-- First-occurrence deduplication of a list of strings. -/
def dedupKeepFirst (l : List String) : List String :=
  dropDuplicatesBy (fun s => s) l []

/-- The static synonym table `common_abbrevs`. -/
def common_abbrevs : List (String × String) :=
  [ ("acetaminophen", "paracetamol"),
    ("paracetamol", "acetaminophen"),
    ("aspirin", "acetylsalicylic acid"),
    ("acetylsalicylic acid", "aspirin"),
    ("ibuprofen", "advil"),
    ("advil", "ibuprofen") ]

/-- Embedding of `create_drug_name_variations`: the name itself, its
normalized form when that differs from the lowercased name, and a synonym
from the static table when one exists; deduplicated (`list(set(...))`). -/
def create_drug_name_variations (drug_name : String) : List String :=
  let variations := [drug_name]
  let normalized := normalize_drug_name drug_name
  let variations :=
    if normalized ≠ pyLower drug_name then variations ++ [normalized] else variations
  let variations :=
    match common_abbrevs.lookup (pyLower drug_name) with
    | some ab => variations ++ [ab]
    | none => variations
  dedupKeepFirst variations

/-- Lookup in a Python-dict model: the last inserted binding of a key wins. -/
def pyLookup (d : List (String × String)) (k : String) : Option String :=
  d.reverse.lookup k

/-- Embedding of the `ot_variations_dict` build loop: for each candidate in
list order, insert a binding from each lowercased variation to the
candidate (later candidates overwrite earlier ones on key collision). -/
def buildVariationsDict (ot_drugs : List String) : List (String × String) :=
  (ot_drugs.map (fun ot_drug =>
    (create_drug_name_variations ot_drug).map
      (fun var => (pyLower var, ot_drug)))).flatten

/-- Embedding of the `ot_normalized_dict` build loop: a binding from each
candidate's normalized form to the candidate. -/
def buildNormalizedDict (ot_drugs : List String) : List (String × String) :=
  ot_drugs.map (fun ot_drug => (normalize_drug_name ot_drug, ot_drug))

/-! ### The fuzzy tier and the per-source-name matcher

`SequenceMatcher(None, a, b).ratio()` is a Python stdlib call; it is
modelled as an abstract similarity parameter `sim` applied to the two
normalized names.  The loop structure (length pruning, strict-improvement
updates, early exits at 0.99 and 0.95) is embedded from the source. -/

/-- Embedding of the fuzzy-matching loop (drug_matching.py lines 310-331):
scan candidates in order threading `(best_score, best_match)`; `break` when
the running best is at least 0.99 at the top of an iteration; skip a
candidate when the normalized lengths differ by more than 5; update on a
strictly better similarity and `break` immediately when it is at least
0.95. -/
def fuzzyScan (sim : String → String → ℚ) (fda_normalized : String) :
    List String → ℚ × Option String → ℚ × Option String
  | [], best => best
  | ot_drug :: rest, best =>
    if (99 : ℚ) / 100 ≤ best.1 then best
    else
      let ot_normalized := normalize_drug_name ot_drug
      if 5 < ((fda_normalized.length : ℤ) - (ot_normalized.length : ℤ)).natAbs then
        fuzzyScan sim fda_normalized rest best
      else
        let similarity := sim fda_normalized ot_normalized
        if best.1 < similarity then
          if (95 : ℚ) / 100 ≤ similarity then (similarity, some ot_drug)
          else fuzzyScan sim fda_normalized rest (similarity, some ot_drug)
        else fuzzyScan sim fda_normalized rest best

/-- Embedding of the per-source-name matching body (identical in the serial
loop, lines 287-331, and the parallel worker `process_chunk`, lines
150-197): exact-variation tier, then normalized-exact tier, then the fuzzy
scan; returns `(best_score, best_match)`. -/
def matchOneWith (sim : String → String → ℚ)
    (varsDict normDict : List (String × String))
    (ot_drugs : List String) (fda_drug : String) : ℚ × Option String :=
  let fda_variations := create_drug_name_variations fda_drug
  let fda_normalized := normalize_drug_name fda_drug
  match fda_variations.findSome? (fun v => pyLookup varsDict (pyLower v)) with
  | some m => (1, some m)
  | none =>
    match pyLookup normDict fda_normalized with
    | some m => (1, some m)
    | none => fuzzyScan sim fda_normalized ot_drugs (0, none)

/-- Embedding of `match_fda_to_opentargets_drugs_serial`: build the two
dictionaries once, then for each source name in order keep `(name, match)`
exactly when the best score reaches the threshold. -/
def match_fda_to_opentargets_drugs_serial (sim : String → String → ℚ)
    (fda_drugs ot_drugs : List String) (threshold : ℚ) :
    List (String × Option String) :=
  let varsDict := buildVariationsDict ot_drugs
  let normDict := buildNormalizedDict ot_drugs
  fda_drugs.filterMap (fun fda_drug =>
    let best := matchOneWith sim varsDict normDict ot_drugs fda_drug
    if threshold ≤ best.1 then some (fda_drug, best.2) else none)

/-- Embedding of the parallel worker `process_chunk` (drug_matching.py lines
150-199): one `(fda_drug, best_score, best_match)` triple per source name
of the chunk.  Its per-name body is textually identical to the serial
loop's, embedded once as `matchOneWith`. -/
def process_chunk (sim : String → String → ℚ)
    (varsDict normDict : List (String × String)) (ot_drugs : List String)
    (fda_chunk : List String) : List (String × ℚ × Option String) :=
  fda_chunk.map (fun fda_drug =>
    (fda_drug, matchOneWith sim varsDict normDict ot_drugs fda_drug))

/-- Embedding of `match_fda_to_opentargets_drugs_parallel`: process chunks
of the source list independently, flatten the chunk results in order, then
keep the pairs whose best score reaches the threshold.  The chunk list is a
parameter; the claim quantifies over every chunking of the source list. -/
def match_fda_to_opentargets_drugs_parallel (sim : String → String → ℚ)
    (fda_chunks : List (List String)) (ot_drugs : List String)
    (threshold : ℚ) : List (String × Option String) :=
  let varsDict := buildVariationsDict ot_drugs
  let normDict := buildNormalizedDict ot_drugs
  let results := (fda_chunks.map (process_chunk sim varsDict normDict ot_drugs)).flatten
  results.filterMap (fun r =>
    if threshold ≤ r.2.1 then some (r.1, r.2.2) else none)

/-! ### Drug-target associations and direct evidence
(drug_matching.py lines 428-431, direct_evidence.py) -/

/-- A row of the drug-target table consumed by
`DirectEvidenceComputer.compute_direct_dili_evidence`. -/
structure AssocRow where
  fda_drug_name : String
  ot_target_symbol : String
  fda_dili_concern : String
  dili_severity_weight : ℚ
deriving DecidableEq, Repr

/-- The deduplication key `(fda_drug_name, ot_target_symbol)` used both by
`create_drug_target_mapping` and by the direct-evidence computer. -/
def assocKey (r : AssocRow) : String × String :=
  (r.fda_drug_name, r.ot_target_symbol)

/-- Embedding of
`drop_duplicates(subset=['fda_drug_name', 'ot_target_symbol'], keep='first')`. -/
def dedupAssocs (rows : List AssocRow) : List AssocRow :=
  dropDuplicatesBy assocKey rows []

/-- Per-target `drug_count`: `groupby('ot_target_symbol')` with `nunique`
over `fda_drug_name`, computed on the deduplicated table. -/
def drug_count_of (rows : List AssocRow) (target : String) : Nat :=
  (((dedupAssocs rows).filter (fun r => r.ot_target_symbol == target)).map
    (fun r => r.fda_drug_name)).dedup.length

/-- Per-target `total_dili_weight`: sum of `dili_severity_weight` over the
deduplicated rows of the target. -/
def total_dili_weight_of (rows : List AssocRow) (target : String) : ℚ :=
  (((dedupAssocs rows).filter (fun r => r.ot_target_symbol == target)).map
    (fun r => r.dili_severity_weight)).sum

/-- Per-target `high_risk_drug_count`.  The source groups the
`Most-DILI-Concern` sub-table by target and applies `nunique`; that series
only has entries for targets with at least one such drug, and
`.fillna(0)` is applied to it *before* it is assigned as a column, so the
assignment's index alignment leaves `NaN` — modelled as `none` — for every
target with no `Most-DILI-Concern` drug. -/
def high_risk_drug_count_of (rows : List AssocRow) (target : String) : Option Nat :=
  let most := ((dedupAssocs rows).filter (fun r =>
    r.ot_target_symbol == target && r.fda_dili_concern == "Most-DILI-Concern")).map
      (fun r => r.fda_drug_name)
  if most.isEmpty then none else some most.dedup.length

/-- Per-target `dili_risk_ratio`: `high_risk_drug_count / drug_count`
followed by `.fillna(0)`; a `NaN` numerator (a `none` count) yields 0. -/
def dili_risk_ratio_q (rows : List AssocRow) (target : String) : ℚ :=
  match high_risk_drug_count_of rows target with
  | none => 0
  | some h => (h : ℚ) / (drug_count_of rows target : ℚ)

/-- The targets appearing in the direct-evidence output (the groupby keys of
the deduplicated table). -/
def directEvidenceTargets (rows : List AssocRow) : List String :=
  ((dedupAssocs rows).map (fun r => r.ot_target_symbol)).dedup

/-! ### Network guilt-by-association (network_scorer.py lines 31-78) -/

/-- A row of the target-target network table. -/
structure NetworkRow where
  target1 : String
  n_risk_targets : ℚ
deriving DecidableEq, Repr

/-- The Pathway Commons node identifiers mapped to a gene symbol:
`mapping_df[mapping_df['gene_symbol'] == target]['pc_target'].unique()`. -/
def pc_targets_of (mapping_df : List (String × String)) (target : String) :
    List String :=
  dedupKeepFirst ((mapping_df.filter (fun p => p.1 == target)).map (fun p => p.2))

/-- Embedding of `NetworkScorer.compute_network_guilt_by_association` for a
single target.  `mapping_df = none` models the target-mapping file being
absent (both degenerate branches return a zero score); otherwise the score
is the sum of `n_risk_targets` over the network rows whose `target1` is
among the mapped node identifiers, with explicit zero defaults for an empty
mapping result or an empty filtered network. -/
def compute_network_guilt_by_association
    (mapping_df : Option (List (String × String)))
    (network_df : List NetworkRow) (target : String) : ℚ :=
  if network_df = [] then 0
  else
    match mapping_df with
    | none => 0
    | some mapping =>
      let pc_targets := pc_targets_of mapping target
      if 0 < pc_targets.length then
        let target_network := network_df.filter
          (fun r => pc_targets.contains r.target1)
        if target_network = [] then 0
        else (target_network.map (fun r => r.n_risk_targets)).sum
      else 0

/-! ### Risk calculator (risk_calculator.py lines 25-82) -/

/-- The three risk categories assigned by tertile binning. -/
inductive RiskCategory where
  | low
  | medium
  | high
deriving DecidableEq, Repr

/-- Column maximum as used by `Series.max()` under the guard `max_val > 0`:
the fold starts at 0, which agrees with pandas on every nonnegative column
and makes the `0 < colMax` guard coincide with the source's `max_val > 0`. -/
def colMax (xs : List ℚ) : ℚ :=
  xs.foldr max 0

/-- Embedding of the per-feature normalization loop: divide the column by
its maximum when that is positive, otherwise assign the scalar 0 to every
row. -/
def normalizeColumn (xs : List ℚ) : List ℚ :=
  if 0 < colMax xs then xs.map (fun v => v / colMax xs)
  else xs.map (fun _ => 0)

/-- Sort a list of rationals ascending (model of sorted order used by
quantile computation and `np.unique`). -/
def sortQ (xs : List ℚ) : List ℚ :=
  xs.insertionSort (· ≤ ·)

/-- Linear-interpolation quantile of a sorted list `s` at fraction `q`
(pandas `Series.quantile` default): position `q * (n - 1)`, interpolating
between the two neighbouring order statistics. -/
def quantileAt (s : List ℚ) (q : ℚ) : ℚ :=
  let n := s.length
  let p := q * ((n : ℚ) - 1)
  let i := (⌊p⌋ : ℤ).toNat
  let lo := s.getD i 0
  let hi := s.getD (i + 1) lo
  lo + (p - (⌊p⌋ : ℤ)) * (hi - lo)

/-- The four tertile quantile edges `q ∈ {0, 1/3, 2/3, 1}` of a score list. -/
def tertileEdges (xs : List ℚ) : List ℚ :=
  let s := sortQ xs
  [quantileAt s 0, quantileAt s (1 / 3), quantileAt s (2 / 3), quantileAt s 1]

/-- Assign a value to one of three right-closed bins
`(b0, b1], (b1, b2], (b2, b3]` (values equal to `b0` fall in the first bin,
matching `include_lowest`/qcut semantics); out-of-range values get no bin
(pandas would produce `NaN`). -/
def binAssign (b0 b1 b2 b3 x : ℚ) : Option RiskCategory :=
  if x < b0 then none
  else if x ≤ b1 then some .low
  else if x ≤ b2 then some .medium
  else if x ≤ b3 then some .high
  else none

/-- Embedding of
`pd.qcut(scores, q=3, labels=['Low','Medium','High'], duplicates='drop')`:
compute the four tertile edges, drop duplicate edges (`np.unique` sorts and
deduplicates); when fewer than 4 distinct edges remain the three labels no
longer fit the bins and qcut raises `ValueError`, modelled as `none`. -/
def qcutTertiles (xs : List ℚ) : Option (List (Option RiskCategory)) :=
  let es := tertileEdges xs
  if es.dedup.length = 4 then
    let b := sortQ es
    some (xs.map (binAssign (b.getD 0 0) (b.getD 1 0) (b.getD 2 0) (b.getD 3 0)))
  else none

/-- Minimum of a list of rationals (0 on the empty list, unused there). -/
def listMinD (xs : List ℚ) : ℚ :=
  match xs with
  | [] => 0
  | h :: t => t.foldl min h

/-- Maximum of a list of rationals (0 on the empty list, unused there). -/
def listMaxD (xs : List ℚ) : ℚ :=
  match xs with
  | [] => 0
  | h :: t => t.foldl max h

/-- The bin edges of `pd.cut(scores, bins=3, right=True)`: 3 equal-width
bins over `[min, max]`; when `min == max` both endpoints are first moved
out by 0.1% (or by 0.001 at zero), otherwise the lowest edge is lowered by
0.1% of the range after the linspace. -/
def cutEdges (xs : List ℚ) : ℚ × ℚ × ℚ × ℚ :=
  let mn := listMinD xs
  let mx := listMaxD xs
  if mn = mx then
    let mn' := mn - (if mn = 0 then 1 / 1000 else |mn| / 1000)
    let mx' := mx + (if mx = 0 then 1 / 1000 else |mx| / 1000)
    (mn', mn' + (mx' - mn') / 3, mn' + 2 * (mx' - mn') / 3, mx')
  else
    let adj := (mx - mn) / 1000
    (mn - adj, mn + (mx - mn) / 3, mn + 2 * (mx - mn) / 3, mx)

/-- Embedding of the fallback
`pd.cut(scores, bins=3, labels=['Low','Medium','High'], include_lowest=True)`. -/
def cutTertiles (xs : List ℚ) : List (Option RiskCategory) :=
  let e := cutEdges xs
  xs.map (binAssign e.1 e.2.1 e.2.2.1 e.2.2.2)

/-- Embedding of the categorization step (risk_calculator.py lines 58-73):
try equal-frequency tertiles first, and on the `ValueError` fall back to
equal-width bins. -/
def riskCategoriesOf (xs : List ℚ) : List (Option RiskCategory) :=
  match qcutTertiles xs with
  | some cats => cats
  | none => cutTertiles xs

/-- The in-memory state of the `combined_scores` DataFrame.  The three input
columns are always present; the five columns the function assigns are
`Option`-valued so that their absence before the call is observable.
pandas column assignment (`df[col] = ...`) mutates the DataFrame object the
caller passed in, so the post-call state of the caller's table is the
returned record. -/
structure CombinedScores where
  total_dili_weight : List ℚ
  high_risk_drug_count : List ℚ
  network_dili_score : List ℚ
  total_dili_weight_normalized : Option (List ℚ) := none
  high_risk_drug_count_normalized : Option (List ℚ) := none
  network_dili_score_normalized : Option (List ℚ) := none
  dili_risk_score : Option (List ℚ) := none
  risk_category : Option (List (Option RiskCategory)) := none
deriving DecidableEq, Repr

/-- The raw blended score
`total_dili_weight_normalized + alpha * network_dili_score_normalized`
(row-aligned column arithmetic).  `high_risk_drug_count_normalized` is
computed by the source but does not appear here. -/
def rawRiskBlend (alpha : ℚ) (df : CombinedScores) : List ℚ :=
  List.zipWith (fun t n => t + alpha * n)
    (normalizeColumn df.total_dili_weight)
    (normalizeColumn df.network_dili_score)

/-- The final `dili_risk_score` column: the raw blend divided by its maximum
when that maximum is positive, otherwise the raw blend unchanged. -/
def finalRiskScores (alpha : ℚ) (df : CombinedScores) : List ℚ :=
  let raw := rawRiskBlend alpha df
  if 0 < colMax raw then raw.map (fun v => v / colMax raw) else raw

/-- Embedding of `RiskCalculator.compute_final_risk_score`: normalize the
three features, blend, renormalize, categorize.  Every assignment is an
in-place column write on the argument; the returned record is the state of
that same DataFrame after the call. -/
def compute_final_risk_score (alpha : ℚ) (df : CombinedScores) : CombinedScores :=
  let fin := finalRiskScores alpha df
  { df with
    total_dili_weight_normalized := some (normalizeColumn df.total_dili_weight),
    high_risk_drug_count_normalized := some (normalizeColumn df.high_risk_drug_count),
    network_dili_score_normalized := some (normalizeColumn df.network_dili_score),
    dili_risk_score := some fin,
    risk_category := some (riskCategoriesOf fin) }

/-! ### Claim theorems -/

/-- C2: the claim that `normalize_drug_name` is idempotent fails on the
code.  Whitespace collapsing runs before punctuation stripping, so
`"a , b"` normalizes to `"a  b"` (two spaces), which a second application
collapses to `"a b"`; and punctuation stripping can splice a salt suffix
together, so `"hydro-chloride"` normalizes to `"hydrochloride"`, which a
second application deletes entirely. -/
theorem normalize_not_idempotent_eval :
    normalize_drug_name (normalize_drug_name "a , b") ≠
      normalize_drug_name "a , b" ∧
    normalize_drug_name "a , b" = "a  b" ∧
    normalize_drug_name (normalize_drug_name "hydro-chloride") ≠
      normalize_drug_name "hydro-chloride" ∧
    normalize_drug_name "hydro-chloride" = "hydrochloride" ∧
    normalize_drug_name "hydrochloride" = "" :=
  ⟨by decide, rfl, by decide, rfl, rfl⟩

/-- C3: a target none of whose drugs are `Most-DILI-Concern` gets a missing
(`NaN`) `high_risk_drug_count`, not 0: the source applies `.fillna(0)` to
the grouped series before index alignment, so the alignment reintroduces
the missing value.  The downstream ratio is then zeroed by its own
`.fillna(0)`.  For a target that does have a `Most-DILI-Concern` drug the
distinct-drug count and the ratio agree with the claim. -/
theorem high_risk_count_missing_eval :
    "T1" ∈ directEvidenceTargets [⟨"drugA", "T1", "Less-DILI-Concern", 1⟩] ∧
    high_risk_drug_count_of [⟨"drugA", "T1", "Less-DILI-Concern", 1⟩] "T1" = none ∧
    dili_risk_ratio_q [⟨"drugA", "T1", "Less-DILI-Concern", 1⟩] "T1" = 0 ∧
    high_risk_drug_count_of
      [⟨"drugB", "T2", "Most-DILI-Concern", 2⟩,
       ⟨"drugC", "T2", "Less-DILI-Concern", 1⟩] "T2" = some 1 ∧
    dili_risk_ratio_q
      [⟨"drugB", "T2", "Most-DILI-Concern", 2⟩,
       ⟨"drugC", "T2", "Less-DILI-Concern", 1⟩] "T2" = 1 / 2 :=
  ⟨by decide, rfl, rfl, rfl, by rfl⟩

/-- C7: for a target with direct evidence, the network score is exactly 0
when the network table is empty, when the mapping file is absent, when the
gene symbol maps to no network node identifier, or when the mapped
identifiers have no network rows; otherwise it is the flat sum of the
precomputed `n_risk_targets` attribute over the network rows whose
`target1` is among the mapped identifiers. -/
theorem network_score_flat_sum (mapping_df : Option (List (String × String)))
    (network_df : List NetworkRow) (target : String) :
    (network_df = [] →
      compute_network_guilt_by_association mapping_df network_df target = 0) ∧
    (mapping_df = none →
      compute_network_guilt_by_association mapping_df network_df target = 0) ∧
    (∀ m, mapping_df = some m → pc_targets_of m target = [] →
      compute_network_guilt_by_association mapping_df network_df target = 0) ∧
    (∀ m, mapping_df = some m →
      network_df.filter (fun r => (pc_targets_of m target).contains r.target1) = [] →
      compute_network_guilt_by_association mapping_df network_df target = 0) ∧
    (∀ m, mapping_df = some m → network_df ≠ [] →
      compute_network_guilt_by_association mapping_df network_df target =
        ((network_df.filter (fun r => (pc_targets_of m target).contains r.target1)).map
          (fun r => r.n_risk_targets)).sum) := by
  refine ⟨?_, ?_, ?_, ?_, ?_⟩
  · intro h; subst h; rfl
  · intro h; subst h
    simp [compute_network_guilt_by_association]
  · intro m hm hpc; subst hm
    simp [compute_network_guilt_by_association, hpc]
  · intro m hm hfilt; subst hm
    by_cases hn : network_df = []
    · simp [compute_network_guilt_by_association, hn]
    · simp only [compute_network_guilt_by_association, hn, if_false]
      by_cases hpc : 0 < (pc_targets_of m target).length
      · simp only [hpc, if_true]
        rw [hfilt]
        simp
      · simp [hpc]
  · intro m hm hne; subst hm
    simp only [compute_network_guilt_by_association, hne, if_false]
    by_cases hpc : 0 < (pc_targets_of m target).length
    · simp only [hpc, if_true]
      by_cases hfilt :
          network_df.filter (fun r => (pc_targets_of m target).contains r.target1) = []
      · rw [hfilt]
        simp
      · simp only [hfilt, if_false]
    · have hpc' : pc_targets_of m target = [] := by
        cases h : pc_targets_of m target with
        | nil => rfl
        | cons a l => rw [h] at hpc; simp at hpc
      rw [hpc']
      simp [hpc]

/-- Witness for C7 at concrete inputs: gene `G1` maps to nodes `P1` and
`P2`, so the score is the flat sum over their rows; a missing mapping file,
an empty network, and an unmapped gene each give score 0. -/
theorem network_score_flat_sum_witness :
    compute_network_guilt_by_association
      (some [("G1", "P1"), ("G1", "P2"), ("G2", "P3")])
      [⟨"P1", 2⟩, ⟨"P3", 5⟩, ⟨"P2", 1⟩, ⟨"P1", 4⟩] "G1" =
      ((([⟨"P1", 2⟩, ⟨"P3", 5⟩, ⟨"P2", 1⟩, ⟨"P1", 4⟩] : List NetworkRow).filter
        (fun r => (pc_targets_of [("G1", "P1"), ("G1", "P2"), ("G2", "P3")] "G1").contains
          r.target1)).map (fun r => r.n_risk_targets)).sum ∧
    compute_network_guilt_by_association none
      [⟨"P1", 2⟩, ⟨"P3", 5⟩, ⟨"P2", 1⟩, ⟨"P1", 4⟩] "G1" = 0 ∧
    compute_network_guilt_by_association
      (some [("G1", "P1"), ("G1", "P2"), ("G2", "P3")]) [] "G1" = 0 ∧
    compute_network_guilt_by_association
      (some [("G1", "P1"), ("G1", "P2"), ("G2", "P3")])
      [⟨"P1", 2⟩, ⟨"P3", 5⟩, ⟨"P2", 1⟩, ⟨"P1", 4⟩] "ABSENT" = 0 :=
  ⟨(network_score_flat_sum
      (some [("G1", "P1"), ("G1", "P2"), ("G2", "P3")])
      [⟨"P1", 2⟩, ⟨"P3", 5⟩, ⟨"P2", 1⟩, ⟨"P1", 4⟩] "G1").2.2.2.2
      [("G1", "P1"), ("G1", "P2"), ("G2", "P3")] rfl (by decide),
    (network_score_flat_sum none
      [⟨"P1", 2⟩, ⟨"P3", 5⟩, ⟨"P2", 1⟩, ⟨"P1", 4⟩] "G1").2.1 rfl,
    (network_score_flat_sum
      (some [("G1", "P1"), ("G1", "P2"), ("G2", "P3")]) [] "G1").1 rfl,
    (network_score_flat_sum
      (some [("G1", "P1"), ("G1", "P2"), ("G2", "P3")])
      [⟨"P1", 2⟩, ⟨"P3", 5⟩, ⟨"P2", 1⟩, ⟨"P1", 4⟩] "ABSENT").2.2.1
      [("G1", "P1"), ("G1", "P2"), ("G2", "P3")] rfl (by rfl)⟩

/-! ### Helper lemmas: first-seen-wins deduplication -/

theorem dropDuplicatesBy_keys_nodup {α κ : Type} [DecidableEq κ] (key : α → κ) :
    ∀ (rows : List α) (seen : List κ),
      ((dropDuplicatesBy key rows seen).map key).Nodup ∧
      ∀ k ∈ (dropDuplicatesBy key rows seen).map key, k ∉ seen := by
  intro rows
  induction rows with
  | nil => intro seen; simp [dropDuplicatesBy]
  | cons r rs ih =>
    intro seen
    by_cases h : key r ∈ seen
    · simpa [dropDuplicatesBy, h] using ih seen
    · have := ih (key r :: seen)
      simp only [dropDuplicatesBy, h, if_false, List.map_cons, List.nodup_cons]
      refine ⟨⟨fun hmem => ?_, this.1⟩, ?_⟩
      · exact (this.2 _ hmem) (List.mem_cons_self _ _)
      · intro k hk
        rcases List.mem_cons.1 hk with hk | hk
        · exact hk ▸ h
        · intro hks
          exact (this.2 _ hk) (List.mem_cons_of_mem _ hks)

theorem dropDuplicatesBy_sublist {α κ : Type} [DecidableEq κ] (key : α → κ) :
    ∀ (rows : List α) (seen : List κ),
      (dropDuplicatesBy key rows seen).Sublist rows := by
  intro rows
  induction rows with
  | nil => intro seen; simp [dropDuplicatesBy]
  | cons r rs ih =>
    intro seen
    by_cases h : key r ∈ seen
    · simp only [dropDuplicatesBy, h, if_true]
      exact (ih seen).cons _
    · simp only [dropDuplicatesBy, h, if_false]
      exact (ih _).cons₂ _

theorem dropDuplicatesBy_first_occ {α κ : Type} [DecidableEq κ] (key : α → κ) :
    ∀ (rows : List α) (seen : List κ) (a : α), a ∈ dropDuplicatesBy key rows seen →
      key a ∉ seen ∧ ∃ l1 l2, rows = l1 ++ a :: l2 ∧ ∀ b ∈ l1, key b ≠ key a := by
  intro rows
  induction rows with
  | nil => intro seen a ha; simp [dropDuplicatesBy] at ha
  | cons r rs ih =>
    intro seen a ha
    by_cases h : key r ∈ seen
    · simp only [dropDuplicatesBy, h, if_true] at ha
      obtain ⟨hnot, l1, l2, hsplit, hne⟩ := ih seen a ha
      refine ⟨hnot, r :: l1, l2, by rw [hsplit]; simp, ?_⟩
      intro b hb
      rcases List.mem_cons.1 hb with hb | hb
      · subst hb; intro hkey; exact hnot (hkey ▸ h)
      · exact hne b hb
    · simp only [dropDuplicatesBy, h, if_false, List.mem_cons] at ha
      rcases ha with ha | ha
      · subst ha
        exact ⟨h, [], rs, rfl, by simp⟩
      · obtain ⟨hnot, l1, l2, hsplit, hne⟩ := ih _ a ha
        have hnot' : key a ∉ seen := fun hs => hnot (List.mem_cons_of_mem _ hs)
        have hner : key a ≠ key r := fun hs => hnot (hs ▸ List.mem_cons_self _ _)
        refine ⟨hnot', r :: l1, l2, by rw [hsplit]; simp, ?_⟩
        intro b hb
        rcases List.mem_cons.1 hb with hb | hb
        · subst hb; exact fun hk => hner hk.symm
        · exact hne b hb

theorem dropDuplicatesBy_covers {α κ : Type} [DecidableEq κ] (key : α → κ) :
    ∀ (rows : List α) (seen : List κ) (a : α), a ∈ rows →
      key a ∈ seen ∨ ∃ b ∈ dropDuplicatesBy key rows seen, key b = key a := by
  intro rows
  induction rows with
  | nil => intro seen a ha; simp at ha
  | cons r rs ih =>
    intro seen a ha
    rcases List.mem_cons.1 ha with ha | ha
    · subst ha
      by_cases h : key a ∈ seen
      · exact Or.inl h
      · exact Or.inr ⟨a, by simp [dropDuplicatesBy, h], rfl⟩
    · by_cases h : key r ∈ seen
      · simpa [dropDuplicatesBy, h] using ih seen a ha
      · rcases ih (key r :: seen) a ha with hs | ⟨b, hb, hkb⟩
        · rcases List.mem_cons.1 hs with hs | hs
          · exact Or.inr ⟨r, by simp [dropDuplicatesBy, h], hs.symm⟩
          · exact Or.inl hs
        · exact Or.inr ⟨b, by simp [dropDuplicatesBy, h, hb], hkb⟩

theorem dropDuplicatesBy_append_dup {α κ : Type} [DecidableEq κ] (key : α → κ) :
    ∀ (rows : List α) (seen : List κ) (r : α),
      (key r ∈ seen ∨ ∃ r' ∈ rows, key r' = key r) →
      dropDuplicatesBy key (rows ++ [r]) seen = dropDuplicatesBy key rows seen := by
  intro rows
  induction rows with
  | nil =>
    intro seen r h
    rcases h with h | ⟨r', hr', _⟩
    · simp [dropDuplicatesBy, h]
    · simp at hr'
  | cons r0 rs ih =>
    intro seen r h
    by_cases h0 : key r0 ∈ seen
    · simp only [List.cons_append, dropDuplicatesBy, h0, if_true]
      refine ih seen r ?_
      rcases h with h | ⟨r', hr', hkr⟩
      · exact Or.inl h
      · rcases List.mem_cons.1 hr' with hr' | hr'
        · exact Or.inl (by rw [← hkr, hr']; exact h0)
        · exact Or.inr ⟨r', hr', hkr⟩
    · simp only [List.cons_append, dropDuplicatesBy, h0, if_false]
      congr 1
      refine ih _ r ?_
      rcases h with h | ⟨r', hr', hkr⟩
      · exact Or.inl (List.mem_cons_of_mem _ h)
      · rcases List.mem_cons.1 hr' with hr' | hr'
        · exact Or.inl (by rw [← hkr, hr']; exact List.mem_cons_self _ _)
        · exact Or.inr ⟨r', hr', hkr⟩

/-- C5: after `drop_duplicates(subset=['fda_drug_name','ot_target_symbol'],
keep='first')` the table has at most one row per `(drugName, targetSymbol)`
pair (the mapped keys are `Nodup`), the surviving rows are a sublist of the
input, each kept row is the first occurrence of its pair, every input pair
is still represented, and appending a duplicate of an already-present pair
leaves the deduplicated table unchanged. -/
theorem dedup_first_occurrence (rows : List AssocRow) :
    ((dedupAssocs rows).map assocKey).Nodup ∧
    (dedupAssocs rows).Sublist rows ∧
    (∀ a ∈ dedupAssocs rows,
      ∃ l1 l2, rows = l1 ++ a :: l2 ∧ ∀ b ∈ l1, assocKey b ≠ assocKey a) ∧
    (∀ a ∈ rows, ∃ b ∈ dedupAssocs rows, assocKey b = assocKey a) ∧
    (∀ r, (∃ r' ∈ rows, assocKey r' = assocKey r) →
      dedupAssocs (rows ++ [r]) = dedupAssocs rows) := by
  refine ⟨(dropDuplicatesBy_keys_nodup assocKey rows []).1,
    dropDuplicatesBy_sublist assocKey rows [],
    fun a ha => (dropDuplicatesBy_first_occ assocKey rows [] a ha).2,
    fun a ha => ?_,
    fun r hr => dropDuplicatesBy_append_dup assocKey rows [] r (Or.inr hr)⟩
  rcases dropDuplicatesBy_covers assocKey rows [] a ha with hs | h
  · simp at hs
  · exact h

/-- Witness for C5: a concrete table in which a duplicate
`("aspirin", "PTGS1")` association is discarded in favour of the first
occurrence, and appending a further duplicate changes nothing. -/
theorem dedup_first_occurrence_witness :
    dedupAssocs
      [⟨"aspirin", "PTGS1", "Most-DILI-Concern", 2⟩,
       ⟨"ibuprofen", "PTGS1", "Less-DILI-Concern", 1⟩,
       ⟨"aspirin", "PTGS1", "No-DILI-Concern", 0⟩] =
      [⟨"aspirin", "PTGS1", "Most-DILI-Concern", 2⟩,
       ⟨"ibuprofen", "PTGS1", "Less-DILI-Concern", 1⟩] ∧
    dedupAssocs
      ([⟨"aspirin", "PTGS1", "Most-DILI-Concern", 2⟩,
        ⟨"ibuprofen", "PTGS1", "Less-DILI-Concern", 1⟩] ++
       [⟨"aspirin", "PTGS1", "No-DILI-Concern", 0⟩]) =
      dedupAssocs
        [⟨"aspirin", "PTGS1", "Most-DILI-Concern", 2⟩,
         ⟨"ibuprofen", "PTGS1", "Less-DILI-Concern", 1⟩] :=
  ⟨by decide,
    (dedup_first_occurrence
      [⟨"aspirin", "PTGS1", "Most-DILI-Concern", 2⟩,
       ⟨"ibuprofen", "PTGS1", "Less-DILI-Concern", 1⟩]).2.2.2.2
      ⟨"aspirin", "PTGS1", "No-DILI-Concern", 0⟩ (by decide)⟩

/-! ### Helper lemmas: column normalization bounds -/

theorem le_colMax {xs : List ℚ} {x : ℚ} (hx : x ∈ xs) : x ≤ colMax xs := by
  induction xs with
  | nil => simp at hx
  | cons a l ih =>
    rcases List.mem_cons.1 hx with h | h
    · subst h; exact le_max_left _ _
    · exact le_trans (ih h) (le_max_right _ _)

theorem colMax_nonneg (xs : List ℚ) : 0 ≤ colMax xs := by
  induction xs with
  | nil => simp [colMax]
  | cons a l ih => exact le_trans ih (le_max_right _ _)

theorem colMax_eq_zero_of_zeros {xs : List ℚ} (h : ∀ x ∈ xs, x = 0) :
    colMax xs = 0 := by
  induction xs with
  | nil => simp [colMax]
  | cons a l ih =>
    have ha : a = 0 := h a (List.mem_cons_self _ _)
    have : colMax l = 0 := ih (fun x hx => h x (List.mem_cons_of_mem _ hx))
    simp [colMax] at this ⊢
    simp [ha, this]

theorem normalizeColumn_bounds {xs : List ℚ} (hnn : ∀ x ∈ xs, 0 ≤ x) :
    ∀ y ∈ normalizeColumn xs, 0 ≤ y ∧ y ≤ 1 := by
  intro y hy
  unfold normalizeColumn at hy
  by_cases h : 0 < colMax xs
  · rw [if_pos h] at hy
    obtain ⟨x, hx, rfl⟩ := List.mem_map.1 hy
    exact ⟨div_nonneg (hnn x hx) (le_of_lt h),
      (div_le_one h).2 (le_colMax hx)⟩
  · rw [if_neg h] at hy
    obtain ⟨x, hx, rfl⟩ := List.mem_map.1 hy
    norm_num

theorem mem_zipWith {α β γ : Type} {f : α → β → γ} {as : List α} {bs : List β}
    {c : γ} (hc : c ∈ List.zipWith f as bs) :
    ∃ a ∈ as, ∃ b ∈ bs, c = f a b := by
  induction as generalizing bs with
  | nil => simp at hc
  | cons a as ih =>
    cases bs with
    | nil => simp at hc
    | cons b bs =>
      rcases List.mem_cons.1 hc with h | h
      · exact ⟨a, List.mem_cons_self _ _, b, List.mem_cons_self _ _, h⟩
      · obtain ⟨a', ha', b', hb', rfl⟩ := ih h
        exact ⟨a', List.mem_cons_of_mem _ ha', b', List.mem_cons_of_mem _ hb', rfl⟩

theorem rawRiskBlend_nonneg {alpha : ℚ} {df : CombinedScores}
    (ha : 0 ≤ alpha)
    (htw : ∀ x ∈ df.total_dili_weight, 0 ≤ x)
    (hnw : ∀ x ∈ df.network_dili_score, 0 ≤ x) :
    ∀ s ∈ rawRiskBlend alpha df, 0 ≤ s := by
  intro s hs
  obtain ⟨t, ht, n, hn, rfl⟩ := mem_zipWith hs
  have h1 := (normalizeColumn_bounds htw t ht).1
  have h2 := (normalizeColumn_bounds hnw n hn).1
  positivity

theorem normalizeColumn_zeros {xs : List ℚ} (h : ∀ x ∈ xs, x = 0) :
    ∀ y ∈ normalizeColumn xs, y = 0 := by
  intro y hy
  unfold normalizeColumn at hy
  rw [colMax_eq_zero_of_zeros h] at hy
  simp at hy
  exact hy.2

/-- C1: with a nonnegative blend weight and nonnegative input columns, the
final score is the raw blend
`total_dili_weight_normalized + alpha * network_dili_score_normalized`
divided by its maximum when that maximum is positive and the raw blend
itself (then everywhere zero) when the maximum is 0; every final score lies
in `[0, 1]`; an all-zero input yields all-zero scores with no division
error; and the `high_risk_drug_count` column, although normalized, does not
affect the final score. -/
theorem risk_score_blend_normalization (alpha : ℚ) (df : CombinedScores)
    (ha : 0 ≤ alpha)
    (htw : ∀ x ∈ df.total_dili_weight, 0 ≤ x)
    (hnw : ∀ x ∈ df.network_dili_score, 0 ≤ x) :
    (0 < colMax (rawRiskBlend alpha df) →
      finalRiskScores alpha df =
        (rawRiskBlend alpha df).map (fun v => v / colMax (rawRiskBlend alpha df))) ∧
    (colMax (rawRiskBlend alpha df) = 0 →
      finalRiskScores alpha df = rawRiskBlend alpha df ∧
      ∀ s ∈ finalRiskScores alpha df, s = 0) ∧
    (∀ s ∈ finalRiskScores alpha df, 0 ≤ s ∧ s ≤ 1) ∧
    ((∀ x ∈ df.total_dili_weight, x = 0) → (∀ x ∈ df.network_dili_score, x = 0) →
      ∀ s ∈ finalRiskScores alpha df, s = 0) ∧
    (∀ hcol : List ℚ,
      finalRiskScores alpha { df with high_risk_drug_count := hcol } =
        finalRiskScores alpha df) ∧
    ((compute_final_risk_score alpha df).dili_risk_score =
      some (finalRiskScores alpha df)) := by
  have hzero : colMax (rawRiskBlend alpha df) = 0 →
      finalRiskScores alpha df = rawRiskBlend alpha df ∧
      ∀ s ∈ finalRiskScores alpha df, s = 0 := by
    intro h0
    have hfin : finalRiskScores alpha df = rawRiskBlend alpha df := by
      simp only [finalRiskScores]
      rw [h0]
      simp
    refine ⟨hfin, ?_⟩
    intro s hs
    rw [hfin] at hs
    have h1 := rawRiskBlend_nonneg ha htw hnw s hs
    have h2 := le_colMax hs
    rw [h0] at h2
    linarith
  refine ⟨?_, hzero, ?_, ?_, ?_, ?_⟩
  · intro hpos
    simp only [finalRiskScores]
    rw [if_pos hpos]
  · intro s hs
    by_cases hpos : 0 < colMax (rawRiskBlend alpha df)
    · simp only [finalRiskScores] at hs
      rw [if_pos hpos] at hs
      obtain ⟨x, hx, rfl⟩ := List.mem_map.1 hs
      exact ⟨div_nonneg (rawRiskBlend_nonneg ha htw hnw x hx) (le_of_lt hpos),
        (div_le_one hpos).2 (le_colMax hx)⟩
    · have h0 : colMax (rawRiskBlend alpha df) = 0 :=
        le_antisymm (not_lt.1 hpos) (colMax_nonneg _)
      have := (hzero h0).2 s hs
      simp [this]
  · intro htz hnz
    have h0 : colMax (rawRiskBlend alpha df) = 0 := by
      refine colMax_eq_zero_of_zeros ?_
      intro s hs
      obtain ⟨t, ht, n, hn, rfl⟩ := mem_zipWith hs
      rw [normalizeColumn_zeros htz t ht, normalizeColumn_zeros hnz n hn]
      ring
    exact (hzero h0).2
  · intro hcol
    simp only [finalRiskScores, rawRiskBlend]
  · rfl


/-- Concrete two-target score table for the C1 witness. -/
def dfW : CombinedScores :=
  { total_dili_weight := [2, 1], high_risk_drug_count := [1, 0],
    network_dili_score := [0, 3] }

theorem risk_score_blend_normalization_witness :
    finalRiskScores (1/2) dfW = [1, 1] ∧
    (0 < colMax (rawRiskBlend (1/2) dfW) →
      finalRiskScores (1/2) dfW =
        (rawRiskBlend (1/2) dfW).map
          (fun v => v / colMax (rawRiskBlend (1/2) dfW))) ∧
    (colMax (rawRiskBlend (1/2) dfW) = 0 →
      finalRiskScores (1/2) dfW = rawRiskBlend (1/2) dfW ∧
      ∀ s ∈ finalRiskScores (1/2) dfW, s = 0) ∧
    (∀ s ∈ finalRiskScores (1/2) dfW, 0 ≤ s ∧ s ≤ 1) ∧
    ((∀ x ∈ dfW.total_dili_weight, x = 0) →
      (∀ x ∈ dfW.network_dili_score, x = 0) →
      ∀ s ∈ finalRiskScores (1/2) dfW, s = 0) ∧
    (∀ hcol : List ℚ,
      finalRiskScores (1/2) { dfW with high_risk_drug_count := hcol } =
        finalRiskScores (1/2) dfW) ∧
    ((compute_final_risk_score (1/2) dfW).dili_risk_score =
      some (finalRiskScores (1/2) dfW)) :=
  ⟨by norm_num [finalRiskScores, rawRiskBlend, normalizeColumn, colMax, max_def, dfW],
    risk_score_blend_normalization (1/2) dfW (by norm_num) (by decide) (by decide)⟩

/-- C9 counterexample: `compute_final_risk_score` does not leave the
caller's DataFrame unchanged.  pandas column assignment mutates the
argument object, so after the call the caller's table is the returned
record; on a concrete input without the derived columns the two states
differ (the call has added `dili_risk_score` and the other columns). -/
theorem risk_calculator_mutates_input :
    compute_final_risk_score (1/2)
      { total_dili_weight := [1], high_risk_drug_count := [0],
        network_dili_score := [0] } ≠
      { total_dili_weight := [1], high_risk_drug_count := [0],
        network_dili_score := [0] } := by
  intro heq
  have h := congrArg CombinedScores.dili_risk_score heq
  simp [compute_final_risk_score] at h

/-- C9 amended: `compute_final_risk_score` mutates the caller's table in
place — after the call it carries the three normalized columns, the final
score column and the category column — while the pre-existing input
columns are left unmodified; the returned table is that same mutated
object, so a caller's table that lacked `dili_risk_score` before the call
is observably changed. -/
theorem risk_calculator_inplace_extension (alpha : ℚ) (df : CombinedScores) :
    (compute_final_risk_score alpha df).total_dili_weight =
      df.total_dili_weight ∧
    (compute_final_risk_score alpha df).high_risk_drug_count =
      df.high_risk_drug_count ∧
    (compute_final_risk_score alpha df).network_dili_score =
      df.network_dili_score ∧
    (compute_final_risk_score alpha df).total_dili_weight_normalized =
      some (normalizeColumn df.total_dili_weight) ∧
    (compute_final_risk_score alpha df).high_risk_drug_count_normalized =
      some (normalizeColumn df.high_risk_drug_count) ∧
    (compute_final_risk_score alpha df).network_dili_score_normalized =
      some (normalizeColumn df.network_dili_score) ∧
    (compute_final_risk_score alpha df).dili_risk_score =
      some (finalRiskScores alpha df) ∧
    (compute_final_risk_score alpha df).risk_category =
      some (riskCategoriesOf (finalRiskScores alpha df)) ∧
    (df.dili_risk_score = none → compute_final_risk_score alpha df ≠ df) := by
  refine ⟨rfl, rfl, rfl, rfl, rfl, rfl, rfl, rfl, ?_⟩
  intro hnone heq
  have h := congrArg CombinedScores.dili_risk_score heq
  rw [hnone] at h
  simp [compute_final_risk_score] at h

/-- Witness for the amended C9 at a concrete one-row table whose derived
columns are absent before the call. -/
theorem risk_calculator_inplace_extension_witness :
    (compute_final_risk_score (1/3)
      { total_dili_weight := [2], high_risk_drug_count := [1],
        network_dili_score := [4] }).total_dili_weight = [2] ∧
    (compute_final_risk_score (1/3)
      { total_dili_weight := [2], high_risk_drug_count := [1],
        network_dili_score := [4] }).dili_risk_score =
      some (finalRiskScores (1/3)
        { total_dili_weight := [2], high_risk_drug_count := [1],
          network_dili_score := [4] }) ∧
    compute_final_risk_score (1/3)
      { total_dili_weight := [2], high_risk_drug_count := [1],
        network_dili_score := [4] } ≠
      { total_dili_weight := [2], high_risk_drug_count := [1],
        network_dili_score := [4] } :=
  ⟨(risk_calculator_inplace_extension (1/3)
      { total_dili_weight := [2], high_risk_drug_count := [1],
        network_dili_score := [4] }).1,
    (risk_calculator_inplace_extension (1/3)
      { total_dili_weight := [2], high_risk_drug_count := [1],
        network_dili_score := [4] }).2.2.2.2.2.2.1,
    (risk_calculator_inplace_extension (1/3)
      { total_dili_weight := [2], high_risk_drug_count := [1],
        network_dili_score := [4] }).2.2.2.2.2.2.2.2 rfl⟩

/-! ### Helper lemmas: Python-dict lookup in the variations dictionary -/

theorem lookup_append (k : String) (l1 l2 : List (String × String)) :
    List.lookup k (l1 ++ l2) = (List.lookup k l1).or (List.lookup k l2) := by
  induction l1 with
  | nil => simp [List.lookup]
  | cons p t ih =>
    by_cases h : k == p.1
    · simp [List.lookup, h]
    · have hb : (k == p.1) = false := by simpa using h
      simp only [List.cons_append, List.lookup, hb]
      exact ih

example (p : String → Bool) (l1 l2 : List String) :
    (l1 ++ l2).find? p = (l1.find? p).or (l2.find? p) := List.find?_append

theorem lookup_rev_entries (k ot : String) (vars : List String) :
    List.lookup k ((vars.map (fun v => (pyLower v, ot))).reverse) =
      (if (vars.map pyLower).contains k then some ot else none) := by
  induction vars with
  | nil => simp [List.lookup]
  | cons v t ih =>
    simp only [List.map_cons, List.reverse_cons]
    rw [lookup_append, ih]
    simp only [List.contains_cons]
    cases hcv : (k == pyLower v) with
    | true =>
      have hsing : List.lookup k [(pyLower v, ot)] = some ot := by
        simp [List.lookup, hcv]
      rw [hsing]
      cases hct : (List.map pyLower t).contains k <;> rfl
    | false =>
      have hsing : List.lookup k [(pyLower v, ot)] = none := by
        simp [List.lookup, hcv]
      rw [hsing]
      cases hct : (List.map pyLower t).contains k <;> rfl
theorem pyLookup_buildVariationsDict (ot_drugs : List String) (k : String) :
    pyLookup (buildVariationsDict ot_drugs) k =
      ot_drugs.reverse.find?
        (fun ot => ((create_drug_name_variations ot).map pyLower).contains k) := by
  induction ot_drugs with
  | nil => rfl
  | cons o rest ih =>
    have hbuild : buildVariationsDict (o :: rest) =
        ((create_drug_name_variations o).map (fun v => (pyLower v, o))) ++
          buildVariationsDict rest := by
      simp [buildVariationsDict]
    rw [List.reverse_cons, List.find?_append]
    unfold pyLookup
    rw [hbuild, List.reverse_append, lookup_append]
    unfold pyLookup at ih
    rw [ih, lookup_rev_entries]
    congr 1
    cases hp : ((create_drug_name_variations o).map pyLower).contains k with
    | true =>
      have hfind :
          List.find? (fun ot =>
            ((create_drug_name_variations ot).map pyLower).contains k) [o] =
            some o :=
        List.find?_cons_of_pos _ hp
      rw [hfind]
      rfl
    | false =>
      have hfind :
          List.find? (fun ot =>
            ((create_drug_name_variations ot).map pyLower).contains k) [o] =
            none := by
        rw [List.find?_cons_of_neg _ (by simp only [hp]; decide)]
        rfl
      rw [hfind]
      rfl

/-- C10: in the exact-variation tier the candidate dictionary is built by
overwriting on key collision, so looking up any variation key returns the
*last* candidate in list order having that key among its lowercased
variations; concretely, with candidates `["aspirin", "aspirin sodium"]`
(which both own the key `"aspirin"`, the second via salt-suffix
normalization) the source name `"Aspirin"` is matched to
`"aspirin sodium"`, and reversing the candidate order flips the winner —
the opposite direction from the fuzzy tier's first-candidate-wins rule. -/
theorem variations_dict_last_write_wins :
    (∀ (ot_drugs : List String) (k : String),
      pyLookup (buildVariationsDict ot_drugs) k =
        ot_drugs.reverse.find?
          (fun ot => ((create_drug_name_variations ot).map pyLower).contains k)) ∧
    (∀ sim : String → String → ℚ,
      matchOneWith sim (buildVariationsDict ["aspirin", "aspirin sodium"])
        (buildNormalizedDict ["aspirin", "aspirin sodium"])
        ["aspirin", "aspirin sodium"] "Aspirin" = (1, some "aspirin sodium")) ∧
    (∀ sim : String → String → ℚ,
      matchOneWith sim (buildVariationsDict ["aspirin sodium", "aspirin"])
        (buildNormalizedDict ["aspirin sodium", "aspirin"])
        ["aspirin sodium", "aspirin"] "Aspirin" = (1, some "aspirin")) :=
  ⟨pyLookup_buildVariationsDict, fun _ => rfl, fun _ => rfl⟩

/-- C6: matching is a pure per-source-name function of the name and the full
candidate set: for every chunking of the source list, processing the chunks
independently and concatenating the results yields exactly the same match
map as the serial single-pass implementation. -/
theorem parallel_serial_matcher_agree (sim : String → String → ℚ) (fda_drugs ot_drugs : List String)
    (threshold : ℚ) (fda_chunks : List (List String))
    (h : fda_chunks.flatten = fda_drugs) :
    match_fda_to_opentargets_drugs_parallel sim fda_chunks ot_drugs threshold =
      match_fda_to_opentargets_drugs_serial sim fda_drugs ot_drugs threshold := by
  subst h
  unfold match_fda_to_opentargets_drugs_parallel
    match_fda_to_opentargets_drugs_serial process_chunk
  simp only [← List.map_flatten, List.filterMap_map]
  rfl

/-- Witness for C6: a concrete two-chunk split produces the same match map
as the serial pass, which matches `"Aspirin"` and `"Ibuprofen"` (via the
synonym table) and leaves `"zeta"` unmatched. -/
theorem parallel_serial_matcher_agree_witness :
    match_fda_to_opentargets_drugs_parallel (fun _ _ => 0)
      [["Aspirin"], ["zeta", "Ibuprofen"]] ["aspirin", "advil"] (4/5) =
      match_fda_to_opentargets_drugs_serial (fun _ _ => 0)
        ["Aspirin", "zeta", "Ibuprofen"] ["aspirin", "advil"] (4/5) ∧
    match_fda_to_opentargets_drugs_serial (fun _ _ => 0)
      ["Aspirin", "zeta", "Ibuprofen"] ["aspirin", "advil"] (4/5) =
      [("Aspirin", some "aspirin"), ("Ibuprofen", some "advil")] :=
  ⟨parallel_serial_matcher_agree (fun _ _ => 0)
      ["Aspirin", "zeta", "Ibuprofen"] ["aspirin", "advil"] (4/5)
      [["Aspirin"], ["zeta", "Ibuprofen"]] rfl,
    by with_unfolding_all rfl⟩

/-! ### Helper lemmas: the fuzzy-matching loop -/

/-- The length-pruning predicate of the fuzzy tier: candidates whose
normalized length differs from the source's by more than 5 are skipped. -/
def lenEligible (fda_normalized ot_drug : String) : Bool :=
  ((fda_normalized.length : ℤ) - ((normalize_drug_name ot_drug).length : ℤ)).natAbs ≤ 5

theorem fuzzyScan_congr (fn : String) (sim sim' : String → String → ℚ) :
    ∀ (l : List String) (acc : ℚ × Option String),
      (∀ c ∈ l, lenEligible fn c = true →
        sim fn (normalize_drug_name c) = sim' fn (normalize_drug_name c)) →
      fuzzyScan sim fn l acc = fuzzyScan sim' fn l acc := by
  intro l
  induction l with
  | nil => intro acc h; rfl
  | cons c cs ih =>
    intro acc h
    have hc := h c (List.mem_cons_self _ _)
    have hcs : ∀ x ∈ cs, lenEligible fn x = true →
        sim fn (normalize_drug_name x) = sim' fn (normalize_drug_name x) :=
      fun x hx => h x (List.mem_cons_of_mem _ hx)
    unfold fuzzyScan
    by_cases htop : (99 : ℚ) / 100 ≤ acc.1
    · rw [if_pos htop, if_pos htop]
    · rw [if_neg htop, if_neg htop]
      by_cases hlen :
          5 < ((fn.length : ℤ) - ((normalize_drug_name c).length : ℤ)).natAbs
      · rw [if_pos hlen, if_pos hlen]
        exact ih acc hcs
      · rw [if_neg hlen, if_neg hlen]
        have he : lenEligible fn c = true := by
          simp only [lenEligible, decide_eq_true_eq]
          omega
        rw [hc he]
        by_cases himp : acc.1 < sim' fn (normalize_drug_name c)
        · rw [if_pos himp, if_pos himp]
          by_cases h95 : (95 : ℚ) / 100 ≤ sim' fn (normalize_drug_name c)
          · rw [if_pos h95, if_pos h95]
          · rw [if_neg h95, if_neg h95]
            exact ih _ hcs
        · rw [if_neg himp, if_neg himp]
          exact ih acc hcs

theorem fuzzyScan_early_exit (sim : String → String → ℚ) (fn : String) :
    ∀ (cs rest : List String) (acc : ℚ × Option String),
      acc.1 < (95 : ℚ) / 100 →
      (95 : ℚ) / 100 ≤ (fuzzyScan sim fn cs acc).1 →
      fuzzyScan sim fn (cs ++ rest) acc = fuzzyScan sim fn cs acc := by
  intro cs
  induction cs with
  | nil =>
    intro rest acc hacc hres
    exact absurd hres (not_le.2 hacc)
  | cons c cs ih =>
    intro rest acc hacc hres
    have htop : ¬ (99 : ℚ) / 100 ≤ acc.1 := by
      intro h
      have : (95 : ℚ) / 100 ≤ acc.1 := le_trans (by norm_num) h
      exact absurd this (not_le.2 hacc)
    rw [List.cons_append]
    unfold fuzzyScan at hres ⊢
    simp only [if_neg htop] at hres ⊢
    by_cases hlen :
        5 < ((fn.length : ℤ) - ((normalize_drug_name c).length : ℤ)).natAbs
    · simp only [if_pos hlen] at hres ⊢
      exact ih rest acc hacc hres
    · simp only [if_neg hlen] at hres ⊢
      by_cases himp : acc.1 < sim fn (normalize_drug_name c)
      · simp only [if_pos himp] at hres ⊢
        by_cases h95 : (95 : ℚ) / 100 ≤ sim fn (normalize_drug_name c)
        · simp only [if_pos h95] at hres ⊢
        · simp only [if_neg h95] at hres ⊢
          exact ih rest _ (not_le.1 h95) hres
      · simp only [if_neg himp] at hres ⊢
        exact ih rest acc hacc hres

theorem le_foldr_max (l : List ℚ) (b : ℚ) : b ≤ l.foldr max b := by
  induction l with
  | nil => exact le_refl b
  | cons x t ih => exact le_trans ih (le_max_right _ _)

theorem foldr_max_absorb (l : List ℚ) (a b : ℚ) :
    max a (l.foldr max b) = l.foldr max (max a b) := by
  induction l with
  | nil => rfl
  | cons x t ih =>
    simp only [List.foldr_cons]
    rw [max_left_comm, ih]

theorem fuzzyScan_no_early (sim : String → String → ℚ) (fn : String) :
    ∀ (l : List String) (b : ℚ) (m : Option String),
      b < (95 : ℚ) / 100 →
      (∀ c ∈ l, lenEligible fn c = true →
        sim fn (normalize_drug_name c) < (95 : ℚ) / 100) →
      fuzzyScan sim fn l (b, m) =
        (((l.filter (lenEligible fn)).map
            (fun c => sim fn (normalize_drug_name c))).foldr max b,
          if b < ((l.filter (lenEligible fn)).map
              (fun c => sim fn (normalize_drug_name c))).foldr max b then
            (l.filter (lenEligible fn)).find?
              (fun c => sim fn (normalize_drug_name c) ==
                ((l.filter (lenEligible fn)).map
                  (fun c => sim fn (normalize_drug_name c))).foldr max b)
          else m) := by
  intro l
  induction l with
  | nil =>
    intro b m hb hall
    simp [fuzzyScan, lt_irrefl]
  | cons c cs ih =>
    intro b m hb hall
    have htop : ¬ (99 : ℚ) / 100 ≤ b := by
      intro h
      exact absurd (le_trans (by norm_num) h) (not_le.2 hb)
    have hcs : ∀ x ∈ cs, lenEligible fn x = true →
        sim fn (normalize_drug_name x) < (95 : ℚ) / 100 :=
      fun x hx => hall x (List.mem_cons_of_mem _ hx)
    unfold fuzzyScan
    simp only [if_neg htop]
    by_cases he : lenEligible fn c = true
    · have hlen : ¬ 5 < ((fn.length : ℤ) - ((normalize_drug_name c).length : ℤ)).natAbs := by
        simp only [lenEligible, decide_eq_true_eq] at he
        omega
      simp only [if_neg hlen]
      have hfilt : (c :: cs).filter (lenEligible fn) =
          c :: cs.filter (lenEligible fn) := by
        simp [List.filter_cons, he]
      have hsc : sim fn (normalize_drug_name c) < (95 : ℚ) / 100 :=
        hall c (List.mem_cons_self _ _) he
      by_cases himp : b < sim fn (normalize_drug_name c)
      · simp only [if_pos himp, if_neg (not_le.2 hsc)]
        rw [ih _ _ hsc hcs]
        rw [hfilt]
        simp only [List.map_cons, List.foldr_cons]
        have hM : max (sim fn (normalize_drug_name c))
            ((cs.filter (lenEligible fn)).map
              (fun c => sim fn (normalize_drug_name c)) |>.foldr max b) =
            ((cs.filter (lenEligible fn)).map
              (fun c => sim fn (normalize_drug_name c))).foldr max
              (sim fn (normalize_drug_name c)) := by
          rw [foldr_max_absorb]
          rw [max_eq_left (le_of_lt himp)]
        rw [hM]
        have hsM : sim fn (normalize_drug_name c) ≤
            ((cs.filter (lenEligible fn)).map
              (fun c => sim fn (normalize_drug_name c))).foldr max
              (sim fn (normalize_drug_name c)) :=
          le_foldr_max _ _
        have hbM : b < ((cs.filter (lenEligible fn)).map
            (fun c => sim fn (normalize_drug_name c))).foldr max
            (sim fn (normalize_drug_name c)) :=
          lt_of_lt_of_le himp hsM
        rw [if_pos hbM, Prod.mk.injEq]
        refine ⟨rfl, ?_⟩
        by_cases hcase : sim fn (normalize_drug_name c) =
            ((cs.filter (lenEligible fn)).map
              (fun c => sim fn (normalize_drug_name c))).foldr max
              (sim fn (normalize_drug_name c))
        · rw [if_neg (by rw [← hcase]; exact lt_irrefl _)]
          have hfind : List.find?
              (fun x => sim fn (normalize_drug_name x) ==
                ((cs.filter (lenEligible fn)).map
                  (fun c => sim fn (normalize_drug_name c))).foldr max
                  (sim fn (normalize_drug_name c)))
              (c :: cs.filter (lenEligible fn)) = some c :=
            List.find?_cons_of_pos _ (beq_iff_eq.2 hcase)
          rw [hfind]
        · have hslt : sim fn (normalize_drug_name c) <
              ((cs.filter (lenEligible fn)).map
                (fun c => sim fn (normalize_drug_name c))).foldr max
                (sim fn (normalize_drug_name c)) :=
            lt_of_le_of_ne hsM hcase
          have hfind : List.find?
              (fun x => sim fn (normalize_drug_name x) ==
                ((cs.filter (lenEligible fn)).map
                  (fun c => sim fn (normalize_drug_name c))).foldr max
                  (sim fn (normalize_drug_name c)))
              (c :: cs.filter (lenEligible fn)) =
              List.find?
                (fun x => sim fn (normalize_drug_name x) ==
                  ((cs.filter (lenEligible fn)).map
                    (fun c => sim fn (normalize_drug_name c))).foldr max
                    (sim fn (normalize_drug_name c)))
                (cs.filter (lenEligible fn)) :=
            List.find?_cons_of_neg _ (fun h => hcase (beq_iff_eq.1 h))
          rw [if_pos hslt, hfind]
      · simp only [if_neg himp]
        rw [ih b m hb hcs]
        rw [hfilt]
        simp only [List.map_cons, List.foldr_cons]
        have hM : max (sim fn (normalize_drug_name c))
            (((cs.filter (lenEligible fn)).map
              (fun c => sim fn (normalize_drug_name c))).foldr max b) =
            ((cs.filter (lenEligible fn)).map
              (fun c => sim fn (normalize_drug_name c))).foldr max b :=
          max_eq_right (le_trans (not_lt.1 himp) (le_foldr_max _ _))
        rw [hM, Prod.mk.injEq]
        refine ⟨rfl, ?_⟩
        by_cases hbM : b < ((cs.filter (lenEligible fn)).map
            (fun c => sim fn (normalize_drug_name c))).foldr max b
        · rw [if_pos hbM, if_pos hbM]
          have hpc : sim fn (normalize_drug_name c) ≠
              ((cs.filter (lenEligible fn)).map
                (fun c => sim fn (normalize_drug_name c))).foldr max b :=
            fun hcc => absurd (hcc ▸ hbM) (not_lt.2 (not_lt.1 himp))
          have hfind : List.find?
              (fun x => sim fn (normalize_drug_name x) ==
                ((cs.filter (lenEligible fn)).map
                  (fun c => sim fn (normalize_drug_name c))).foldr max b)
              (c :: cs.filter (lenEligible fn)) =
              List.find?
                (fun x => sim fn (normalize_drug_name x) ==
                  ((cs.filter (lenEligible fn)).map
                    (fun c => sim fn (normalize_drug_name c))).foldr max b)
                (cs.filter (lenEligible fn)) :=
            List.find?_cons_of_neg _ (fun h => hpc (beq_iff_eq.1 h))
          rw [hfind]
        · rw [if_neg hbM, if_neg hbM]
    · have hlen : 5 < ((fn.length : ℤ) - ((normalize_drug_name c).length : ℤ)).natAbs := by
        simp only [lenEligible, decide_eq_true_eq] at he
        omega
      simp only [if_pos hlen]
      have hfilt : (c :: cs).filter (lenEligible fn) = cs.filter (lenEligible fn) := by
        simp [List.filter_cons, he]
      rw [hfilt]
      exact ih b m hb hcs

theorem mem_match_serial (sim : String → String → ℚ) (fda_drugs ot_drugs : List String)
    (threshold : ℚ) (f : String) :
    (∃ mv, (f, mv) ∈
        match_fda_to_opentargets_drugs_serial sim fda_drugs ot_drugs threshold) ↔
      f ∈ fda_drugs ∧ threshold ≤
        (matchOneWith sim (buildVariationsDict ot_drugs)
          (buildNormalizedDict ot_drugs) ot_drugs f).1 := by
  simp only [match_fda_to_opentargets_drugs_serial]
  constructor
  · rintro ⟨mv, hmem⟩
    obtain ⟨a, ha, hg⟩ := List.mem_filterMap.1 hmem
    by_cases hth : threshold ≤
        (matchOneWith sim (buildVariationsDict ot_drugs)
          (buildNormalizedDict ot_drugs) ot_drugs a).1
    · rw [if_pos hth] at hg
      obtain ⟨rfl, _⟩ : a = f ∧ (matchOneWith sim (buildVariationsDict ot_drugs)
          (buildNormalizedDict ot_drugs) ot_drugs a).2 = mv := by
        have := Option.some.inj hg
        exact ⟨congrArg Prod.fst this, congrArg Prod.snd this⟩
      exact ⟨ha, hth⟩
    · rw [if_neg hth] at hg
      exact absurd hg (Option.noConfusion)
  · rintro ⟨hf, hth⟩
    refine ⟨(matchOneWith sim (buildVariationsDict ot_drugs)
      (buildNormalizedDict ot_drugs) ot_drugs f).2, List.mem_filterMap.2 ⟨f, hf, ?_⟩⟩
    rw [if_pos hth]

/-- C4: for a source name that reaches the fuzzy tier (both exact tiers
fail), the matcher (i) reduces to the fuzzy scan, (ii) depends only on
similarity values of candidates within normalized-length distance 5,
(iii) stops scanning as soon as a similarity at least 0.95 has been found,
(iv) when no similarity reaches 0.95, returns the maximum similarity over
the length-eligible candidates together with the first candidate in list
order attaining it, and (v) the source name appears in the serial match
map if and only if its best fuzzy score reaches the threshold. -/
theorem fuzzy_tier_behavior (ot_drugs : List String) (fda_drug : String)
    (h1 : (create_drug_name_variations fda_drug).findSome?
        (fun v => pyLookup (buildVariationsDict ot_drugs) (pyLower v)) = none)
    (h2 : pyLookup (buildNormalizedDict ot_drugs)
        (normalize_drug_name fda_drug) = none) :
    (∀ sim : String → String → ℚ,
      matchOneWith sim (buildVariationsDict ot_drugs)
          (buildNormalizedDict ot_drugs) ot_drugs fda_drug =
        fuzzyScan sim (normalize_drug_name fda_drug) ot_drugs (0, none)) ∧
    (∀ sim sim' : String → String → ℚ,
      (∀ c ∈ ot_drugs, lenEligible (normalize_drug_name fda_drug) c = true →
        sim (normalize_drug_name fda_drug) (normalize_drug_name c) =
          sim' (normalize_drug_name fda_drug) (normalize_drug_name c)) →
      matchOneWith sim (buildVariationsDict ot_drugs)
          (buildNormalizedDict ot_drugs) ot_drugs fda_drug =
        matchOneWith sim' (buildVariationsDict ot_drugs)
          (buildNormalizedDict ot_drugs) ot_drugs fda_drug) ∧
    (∀ (sim : String → String → ℚ) (cs rest : List String),
      (95 : ℚ) / 100 ≤
          (fuzzyScan sim (normalize_drug_name fda_drug) cs (0, none)).1 →
      fuzzyScan sim (normalize_drug_name fda_drug) (cs ++ rest) (0, none) =
        fuzzyScan sim (normalize_drug_name fda_drug) cs (0, none)) ∧
    (∀ sim : String → String → ℚ,
      (∀ c ∈ ot_drugs, lenEligible (normalize_drug_name fda_drug) c = true →
        sim (normalize_drug_name fda_drug) (normalize_drug_name c) <
          (95 : ℚ) / 100) →
      matchOneWith sim (buildVariationsDict ot_drugs)
          (buildNormalizedDict ot_drugs) ot_drugs fda_drug =
        (((ot_drugs.filter (lenEligible (normalize_drug_name fda_drug))).map
            (fun c => sim (normalize_drug_name fda_drug)
              (normalize_drug_name c))).foldr max 0,
          if 0 < ((ot_drugs.filter (lenEligible (normalize_drug_name fda_drug))).map
              (fun c => sim (normalize_drug_name fda_drug)
                (normalize_drug_name c))).foldr max 0 then
            (ot_drugs.filter (lenEligible (normalize_drug_name fda_drug))).find?
              (fun c => sim (normalize_drug_name fda_drug) (normalize_drug_name c) ==
                ((ot_drugs.filter (lenEligible (normalize_drug_name fda_drug))).map
                  (fun c => sim (normalize_drug_name fda_drug)
                    (normalize_drug_name c))).foldr max 0)
          else none)) ∧
    (∀ (sim : String → String → ℚ) (threshold : ℚ) (fda_drugs : List String),
      (∃ mv, (fda_drug, mv) ∈
          match_fda_to_opentargets_drugs_serial sim fda_drugs ot_drugs threshold) ↔
        (fda_drug ∈ fda_drugs ∧ threshold ≤
          (fuzzyScan sim (normalize_drug_name fda_drug) ot_drugs (0, none)).1)) := by
  have hfz : ∀ sim : String → String → ℚ,
      matchOneWith sim (buildVariationsDict ot_drugs)
          (buildNormalizedDict ot_drugs) ot_drugs fda_drug =
        fuzzyScan sim (normalize_drug_name fda_drug) ot_drugs (0, none) := by
    intro sim
    simp only [matchOneWith, h1, h2]
  refine ⟨hfz, ?_, ?_, ?_, ?_⟩
  · intro sim sim' hagree
    rw [hfz sim, hfz sim']
    exact fuzzyScan_congr _ sim sim' ot_drugs (0, none) hagree
  · intro sim cs rest hge
    exact fuzzyScan_early_exit sim _ cs rest (0, none) (by norm_num) hge
  · intro sim hlt
    rw [hfz sim]
    exact fuzzyScan_no_early sim _ ot_drugs 0 none (by norm_num) hlt
  · intro sim threshold fda_drugs
    rw [mem_match_serial sim fda_drugs ot_drugs threshold fda_drug, hfz sim]

/-- Witness for C4: the source name `"zeta"` reaches the fuzzy tier against
the candidate list `["alpha"]`, and with the constant-zero similarity it
stays unmatched: the scan returns `(0, none)` and the match map is empty. -/
theorem fuzzy_tier_behavior_witness :
    ((∀ sim : String → String → ℚ,
      matchOneWith sim (buildVariationsDict ["alpha"])
          (buildNormalizedDict ["alpha"]) ["alpha"] "zeta" =
        fuzzyScan sim (normalize_drug_name "zeta") ["alpha"] (0, none)) ∧
      matchOneWith (fun _ _ => 0) (buildVariationsDict ["alpha"])
        (buildNormalizedDict ["alpha"]) ["alpha"] "zeta" = (0, none) ∧
      match_fda_to_opentargets_drugs_serial (fun _ _ => 0)
        ["zeta"] ["alpha"] (4/5) = []) :=
  ⟨(fuzzy_tier_behavior ["alpha"] "zeta" (by with_unfolding_all rfl)
      (by with_unfolding_all rfl)).1,
    by with_unfolding_all rfl,
    by with_unfolding_all rfl⟩

/-! ### Helper lemmas: sorted lists, quantile edges and binning -/

theorem sortQ_sorted (l : List ℚ) : (sortQ l).Sorted (· ≤ ·) :=
  List.sorted_insertionSort _ l

theorem sortQ_perm (l : List ℚ) : (sortQ l).Perm l :=
  List.perm_insertionSort _ l

theorem sortQ_length (l : List ℚ) : (sortQ l).length = l.length :=
  (sortQ_perm l).length_eq

theorem mem_sortQ {l : List ℚ} {x : ℚ} (h : x ∈ l) : x ∈ sortQ l :=
  ((sortQ_perm l).mem_iff).2 h

theorem sorted_head_le {l : List ℚ} (hs : l.Sorted (· ≤ ·)) :
    ∀ x ∈ l, l.getD 0 0 ≤ x := by
  cases l with
  | nil => intro x hx; simp at hx
  | cons a t =>
    intro x hx
    rcases List.mem_cons.1 hx with h | h
    · subst h; simp
    · simpa using (List.sorted_cons.1 hs).1 x h

theorem getD_mem_of_lt {l : List ℚ} {i : Nat} (h : i < l.length) :
    l.getD i 0 ∈ l := by
  rw [List.getD_eq_getElem _ _ h]
  exact List.getElem_mem h

theorem sorted_le_last {l : List ℚ} (hs : l.Sorted (· ≤ ·)) :
    ∀ x ∈ l, x ≤ l.getD (l.length - 1) 0 := by
  induction l with
  | nil => intro x hx; simp at hx
  | cons a t ih =>
    intro x hx
    cases t with
    | nil =>
      rcases List.mem_cons.1 hx with h | h
      · subst h; simp
      · simp at h
    | cons b t' =>
      have hlen : (a :: b :: t').length - 1 = (b :: t').length := by simp
      have hget : (a :: b :: t').getD ((a :: b :: t').length - 1) 0 =
          (b :: t').getD ((b :: t').length - 1) 0 := by
        rw [hlen]
        rfl
      rw [hget]
      have hst : (b :: t').Sorted (· ≤ ·) := (List.sorted_cons.1 hs).2
      rcases List.mem_cons.1 hx with h | h
      · subst h
        have hmem : (b :: t').getD ((b :: t').length - 1) 0 ∈ b :: t' :=
          getD_mem_of_lt (by simp)
        exact (List.sorted_cons.1 hs).1 _ hmem
      · exact ih hst x h

theorem quantileAt_zero (s : List ℚ) : quantileAt s 0 = s.getD 0 0 := by
  simp [quantileAt]

theorem quantileAt_one {s : List ℚ} (h : s ≠ []) :
    quantileAt s 1 = s.getD (s.length - 1) 0 := by
  have hn : 1 ≤ s.length := List.length_pos.2 h
  simp only [quantileAt]
  have hp : (1 : ℚ) * ((s.length : ℚ) - 1) = ((s.length : ℚ) - 1) := one_mul _
  have hfl : ⌊(s.length : ℚ) - 1⌋ = (s.length : ℤ) - 1 := by
    rw [show ((s.length : ℚ) - 1) = ((s.length : ℤ) - 1 : ℤ) by push_cast; ring]
    exact Int.floor_intCast _
  have htn : ((s.length : ℤ) - 1).toNat = s.length - 1 := by omega
  rw [hp, hfl, htn]
  have hz : ((s.length : ℚ) - 1) - (((s.length : ℤ) - 1 : ℤ) : ℚ) = 0 := by
    push_cast
    ring
  rw [hz]
  ring

theorem binAssign_isSome {b0 b1 b2 b3 x : ℚ} (h0 : ¬ x < b0) (h3 : x ≤ b3) :
    (binAssign b0 b1 b2 b3 x).isSome := by
  unfold binAssign
  rw [if_neg h0]
  by_cases h1 : x ≤ b1
  · simp [h1]
  · rw [if_neg h1]
    by_cases h2 : x ≤ b2
    · simp [h2]
    · rw [if_neg h2, if_pos h3]
      rfl

theorem foldl_min_bounds (t : List ℚ) (a : ℚ) :
    t.foldl min a ≤ a ∧ ∀ x ∈ t, t.foldl min a ≤ x := by
  induction t generalizing a with
  | nil => exact ⟨le_refl a, by simp⟩
  | cons y t ih =>
    have h := ih (min a y)
    refine ⟨le_trans h.1 (min_le_left _ _), ?_⟩
    intro x hx
    rcases List.mem_cons.1 hx with hx | hx
    · rw [hx]; exact le_trans h.1 (min_le_right _ _)
    · exact h.2 x hx

theorem foldl_max_bounds (t : List ℚ) (a : ℚ) :
    a ≤ t.foldl max a ∧ ∀ x ∈ t, x ≤ t.foldl max a := by
  induction t generalizing a with
  | nil => exact ⟨le_refl a, by simp⟩
  | cons y t ih =>
    have h := ih (max a y)
    refine ⟨le_trans (le_max_left _ _) h.1, ?_⟩
    intro x hx
    rcases List.mem_cons.1 hx with hx | hx
    · rw [hx]; exact le_trans (le_max_right _ _) h.1
    · exact h.2 x hx

theorem listMinD_le {xs : List ℚ} {x : ℚ} (hx : x ∈ xs) : listMinD xs ≤ x := by
  cases xs with
  | nil => simp at hx
  | cons h t =>
    rcases List.mem_cons.1 hx with hx | hx
    · rw [hx]; exact (foldl_min_bounds t h).1
    · exact (foldl_min_bounds t h).2 x hx

theorem le_listMaxD {xs : List ℚ} {x : ℚ} (hx : x ∈ xs) : x ≤ listMaxD xs := by
  cases xs with
  | nil => simp at hx
  | cons h t =>
    rcases List.mem_cons.1 hx with hx | hx
    · rw [hx]; exact (foldl_max_bounds t h).1
    · exact (foldl_max_bounds t h).2 x hx

theorem cutEdges_bounds {xs : List ℚ} :
    ∀ x ∈ xs, ¬ x < (cutEdges xs).1 ∧ x ≤ (cutEdges xs).2.2.2 := by
  intro x hx
  have hmn : listMinD xs ≤ x := listMinD_le hx
  have hmx : x ≤ listMaxD xs := le_listMaxD hx
  by_cases heq : listMinD xs = listMaxD xs
  · have hd : (0 : ℚ) <
        (if listMinD xs = 0 then 1 / 1000 else |listMinD xs| / 1000) := by
      by_cases hz : listMinD xs = 0
      · rw [if_pos hz]; norm_num
      · rw [if_neg hz]
        have := abs_pos.2 hz
        positivity
    have hd' : (0 : ℚ) <
        (if listMaxD xs = 0 then 1 / 1000 else |listMaxD xs| / 1000) := by
      by_cases hz : listMaxD xs = 0
      · rw [if_pos hz]; norm_num
      · rw [if_neg hz]
        have := abs_pos.2 hz
        positivity
    simp only [cutEdges, if_pos heq]
    exact ⟨by rw [not_lt]; linarith, by linarith⟩
  · have hlt : listMinD xs < listMaxD xs :=
      lt_of_le_of_ne (le_trans hmn hmx) heq
    have hadj : (0 : ℚ) < (listMaxD xs - listMinD xs) / 1000 := by
      have : (0 : ℚ) < listMaxD xs - listMinD xs := by linarith
      positivity
    simp only [cutEdges, if_neg heq]
    exact ⟨by rw [not_lt]; linarith, hmx⟩

theorem cutTertiles_isSome (xs : List ℚ) :
    ∀ c ∈ cutTertiles xs, c.isSome := by
  intro c hc
  simp only [cutTertiles] at hc
  obtain ⟨x, hx, rfl⟩ := List.mem_map.1 hc
  exact binAssign_isSome (cutEdges_bounds x hx).1 (cutEdges_bounds x hx).2

theorem qcutTertiles_eq {xs : List ℚ} {cats : List (Option RiskCategory)}
    (h : qcutTertiles xs = some cats) :
    cats = xs.map (binAssign ((sortQ (tertileEdges xs)).getD 0 0)
      ((sortQ (tertileEdges xs)).getD 1 0) ((sortQ (tertileEdges xs)).getD 2 0)
      ((sortQ (tertileEdges xs)).getD 3 0)) := by
  simp only [qcutTertiles] at h
  by_cases hc : (tertileEdges xs).dedup.length = 4
  · rw [if_pos hc] at h
    exact (Option.some.inj h).symm
  · rw [if_neg hc] at h
    exact absurd h (Option.noConfusion)

theorem qcutTertiles_isSome {xs : List ℚ} (hne : xs ≠ [])
    {cats : List (Option RiskCategory)} (h : qcutTertiles xs = some cats) :
    ∀ c ∈ cats, c.isSome := by
  intro c hc
  rw [qcutTertiles_eq h] at hc
  obtain ⟨x, hx, rfl⟩ := List.mem_map.1 hc
  have hsne : sortQ xs ≠ [] := by
    intro hnil
    have := sortQ_length xs
    rw [hnil] at this
    exact hne (List.length_eq_zero.1 this.symm)
  have hxs : x ∈ sortQ xs := mem_sortQ hx
  have hq0 : quantileAt (sortQ xs) 0 = (sortQ xs).getD 0 0 := quantileAt_zero _
  have hq1 : quantileAt (sortQ xs) 1 = (sortQ xs).getD ((sortQ xs).length - 1) 0 :=
    quantileAt_one hsne
  have he0 : quantileAt (sortQ xs) 0 ∈ tertileEdges xs := by
    simp [tertileEdges]
  have he3 : quantileAt (sortQ xs) 1 ∈ tertileEdges xs := by
    simp [tertileEdges]
  have hblen : (sortQ (tertileEdges xs)).length = 4 := by
    rw [sortQ_length]
    rfl
  have hb0 : (sortQ (tertileEdges xs)).getD 0 0 ≤ quantileAt (sortQ xs) 0 :=
    sorted_head_le (sortQ_sorted _) _ (mem_sortQ he0)
  have hb3 : quantileAt (sortQ xs) 1 ≤ (sortQ (tertileEdges xs)).getD 3 0 := by
    have := sorted_le_last (sortQ_sorted (tertileEdges xs)) _ (mem_sortQ he3)
    rwa [hblen] at this
  have hx0 : (sortQ xs).getD 0 0 ≤ x := sorted_head_le (sortQ_sorted xs) x hxs
  have hx3 : x ≤ (sortQ xs).getD ((sortQ xs).length - 1) 0 :=
    sorted_le_last (sortQ_sorted xs) x hxs
  refine binAssign_isSome ?_ ?_
  · rw [not_lt]
    calc (sortQ (tertileEdges xs)).getD 0 0 ≤ quantileAt (sortQ xs) 0 := hb0
    _ = (sortQ xs).getD 0 0 := hq0
    _ ≤ x := hx0
  · calc x ≤ (sortQ xs).getD ((sortQ xs).length - 1) 0 := hx3
    _ = quantileAt (sortQ xs) 1 := hq1.symm
    _ ≤ (sortQ (tertileEdges xs)).getD 3 0 := hb3

theorem count_three_categories (l : List (Option RiskCategory))
    (h : ∀ c ∈ l, c.isSome) :
    l.countP (fun c => c == some RiskCategory.low) +
      l.countP (fun c => c == some RiskCategory.medium) +
      l.countP (fun c => c == some RiskCategory.high) = l.length := by
  induction l with
  | nil => rfl
  | cons c t ih =>
    have hc := h c (List.mem_cons_self _ _)
    have ht := ih (fun x hx => h x (List.mem_cons_of_mem _ hx))
    obtain ⟨cat, rfl⟩ := Option.isSome_iff_exists.1 hc
    cases cat <;>
      simp only [List.countP_cons, List.length_cons] <;>
      simp <;> omega

/-- C8: for every non-empty score list, every target receives exactly one
category from Low/Medium/High — the categorized list has one entry per
target, every entry is assigned (`isSome`), and the three bucket counts sum
to the total — with quantile binning attempted first and the equal-width
fallback used when fewer than 4 distinct quantile edges remain; the
fallback itself assigns a category to every value (it never raises). -/
theorem risk_categories_total (xs : List ℚ) (hne : xs ≠ []) :
    (riskCategoriesOf xs).length = xs.length ∧
    (∀ c ∈ riskCategoriesOf xs, c.isSome) ∧
    ((riskCategoriesOf xs).countP (fun c => c == some RiskCategory.low) +
      (riskCategoriesOf xs).countP (fun c => c == some RiskCategory.medium) +
      (riskCategoriesOf xs).countP (fun c => c == some RiskCategory.high) =
      xs.length) ∧
    (∀ c ∈ cutTertiles xs, c.isSome) := by
  have hsome : ∀ c ∈ riskCategoriesOf xs, c.isSome := by
    unfold riskCategoriesOf
    cases hq : qcutTertiles xs with
    | some cats => exact qcutTertiles_isSome hne hq
    | none => exact cutTertiles_isSome xs
  have hlen : (riskCategoriesOf xs).length = xs.length := by
    unfold riskCategoriesOf
    cases hq : qcutTertiles xs with
    | some cats =>
      rw [qcutTertiles_eq hq]
      simp
    | none =>
      simp [cutTertiles]
  refine ⟨hlen, hsome, ?_, cutTertiles_isSome xs⟩
  rw [← hlen]
  exact count_three_categories _ hsome


/-- Witness for C8: on `[0, 1, 2]` quantile binning succeeds and assigns
the three categories in order; on the constant list `[5, 5, 5]` the
quantile edges collapse and the equal-width fallback assigns Medium to
every target. -/
theorem risk_categories_total_witness :
    riskCategoriesOf [0, 1, 2] =
      [some RiskCategory.low, some RiskCategory.medium, some RiskCategory.high] ∧
    riskCategoriesOf [5, 5, 5] =
      [some RiskCategory.medium, some RiskCategory.medium,
        some RiskCategory.medium] ∧
    ((riskCategoriesOf [0, 1, 2]).length = 3 ∧
      (∀ c ∈ riskCategoriesOf [0, 1, 2], c.isSome) ∧
      ((riskCategoriesOf [0, 1, 2]).countP (fun c => c == some RiskCategory.low) +
        (riskCategoriesOf [0, 1, 2]).countP
          (fun c => c == some RiskCategory.medium) +
        (riskCategoriesOf [0, 1, 2]).countP
          (fun c => c == some RiskCategory.high) = 3) ∧
      (∀ c ∈ cutTertiles [0, 1, 2], c.isSome)) :=
  ⟨by with_unfolding_all rfl, by with_unfolding_all rfl,
    risk_categories_total [0, 1, 2] (by decide)⟩
